import Mathlib

/-!
Verification of the static type-and-shape checker in `src/check_type.rs`.

The checker symbolically executes a function's instruction sequence over
abstract `Type` values (element kind + optional shape), returning either a
fully-typed final stack or `none` ("cannot determine").

Embedding notes:
* Rust `Vec` stacks are Lean lists with the *tail* of the list as the top of
  the stack (`push` appends at the end), matching `Vec::push`/`Vec::pop`.
* The Rust struct `Type` is called `Ty` here (`Type` is reserved in Lean);
  it is mutually inductive with `ValueType` because of the `Box` variant.
* `Shape`, `Value`, `Function`, `Instr` and `Primitive` live outside the
  verified source; they are modelled from the spec where noted.
-/

namespace Uiua

/-- Modelled from the spec: the external `Shape` abstraction is an ordered
sequence of non-negative dimension sizes, outermost dimension first,
constructible from a list of sizes and supporting insertion of a new
dimension at a given position. -/
abbrev Shape := List Nat

mutual
/-- Rust `ValueType` from `check_type.rs`: abstract element kind — numeric,
character, opaque function, boxed (recursively wrapping the `Ty` of the
box's contents), or unknown (the default). -/
inductive ValueType where
  | num
  | char
  | function
  | box (inner : Ty)
  | unknown
  deriving DecidableEq

/-- Rust `Type` from `check_type.rs` (renamed `Ty`): a pair of an element kind
and an optional shape (`none` means the shape could not be proven). -/
inductive Ty where
  | mk (value : ValueType) (shape : Option Shape)
  deriving DecidableEq
end

/-- Field accessor for `Ty.value` (Rust `self.value`). -/
def Ty.value : Ty → ValueType
  | .mk v _ => v

/-- Field accessor for `Ty.shape` (Rust `self.shape`). -/
def Ty.shape : Ty → Option Shape
  | .mk _ s => s

/-- The derived `Default` for `Type` in the source:
`{ value: Unknown, shape: None }`. -/
def Ty.default : Ty := .mk .unknown none

/-- Modelled from the spec: the external concrete-value abstraction over
{numeric, byte, character, function}; every value exposes its runtime shape,
and the function variant exposes optional boxed contents (`as_boxed`). -/
inductive Value where
  | num (shape : Shape)
  | byte (shape : Shape)
  | char (shape : Shape)
  | func (shape : Shape) (boxed : Option Value)

/-- Modelled from the spec: `val.shape()` — the value's actual runtime
shape. -/
def Value.shape : Value → Shape
  | .num s => s
  | .byte s => s
  | .char s => s
  | .func s _ => s

/-- Rust `Type::from_value` from `check_type.rs`: numeric/byte values map to the
numeric element type, characters to the character type; a function value
holding a boxed inner value maps to `Box` of the recursively computed `Ty`
of that inner value, any other function value to the opaque-function type.
The shape is always `some (val.shape())`. -/
def Ty.from_value : Value → Ty
  | .num s => .mk .num (some s)
  | .byte s => .mk .num (some s)
  | .char s => .mk .char (some s)
  | .func s none => .mk .function (some s)
  | .func s (some v) => .mk (.box (Ty.from_value v)) (some s)

/-- Modelled from the spec: the external primitive-operation enumeration,
consumed for future extension and currently inert (every primitive bails). -/
inductive Primitive where
  | other

/-- Modelled from the spec: the external instruction abstraction. Three
variants are recognized — push a literal value, begin array literal, end
array literal (with a boxed flag); `other` stands for every remaining
(unmodeled) instruction variant, which the checker bails on. -/
inductive Instr where
  | push (val : Value)
  | beginArray
  | endArray (boxed : Bool)
  | other

/-- Modelled from the spec: the external function abstraction, exposing an
ordered instruction sequence (`f.instrs`). -/
structure Function where
  instrs : List Instr

/-- Rust `TypeEnv` from `check_type.rs`: the abstract stack of `Ty` values
(tail = top) and the stack of open-array markers (recorded stack depths). -/
structure TypeEnv where
  stack : List Ty
  array : List Nat
  deriving DecidableEq

/-- Rust `TypeEnv::push`: append to the stack tail; always succeeds. -/
def TypeEnv.push (env : TypeEnv) (t : Ty) : TypeEnv :=
  { env with stack := env.stack ++ [t] }

/-- Rust `TypeEnv::pop`: remove and return the tail `Ty` (the default unknown
`Ty` if the stack is empty), then clamp every open-array marker down to the
new stack length. -/
def TypeEnv.pop (env : TypeEnv) : Ty × TypeEnv :=
  let stack := env.stack.dropLast
  let val := env.stack.getLast?.getD Ty.default
  (val, { stack := stack, array := env.array.map fun a => min a stack.length })

/-- Rust `items.windows(2).all(|w| p w[0] w[1])` modelled as a Lean recursion: `p` holds for every adjacent
pair of the list (vacuously true for lists of length 0 or 1). -/
def adjacentAll (p : α → α → Bool) : List α → Bool
  | a :: b :: rest => p a b && adjacentAll p (b :: rest)
  | _ => true

/-- The `let value = ...` computation of the `EndArray` arm: if every
adjacent pair of items is equal, the first item's value type — or, for an
empty list, `Unknown` if boxed and `Num` otherwise; if some adjacent pair
differs, `Unknown`. -/
def unifiedValue (boxed : Bool) (items : List Ty) : ValueType :=
  if adjacentAll (fun a b => a == b) items then
    ((items.head?.map Ty.value).getD (if boxed then .unknown else .num))
  else
    .unknown

/-- The non-boxed shape computation of the `EndArray` arm: the first item's
shape if every adjacent pair of items has equal shape (else `none`), with
the item count inserted as a new leading dimension when present. -/
def commonShape (items : List Ty) : Option Shape :=
  let shape :=
    if adjacentAll (fun a b => a.shape == b.shape) items then
      items.head?.bind Ty.shape
    else
      none
  shape.map fun s => items.length :: s

/-- Rust `TypeEnv::instr`: symbolic execution of one instruction.
`Push` pushes `from_value`; `BeginArray` records the current stack length;
`EndArray` pops the latest marker (bailing with `none` if there is none),
splits the stack there (`split_off`, modelled by `take`/`drop`), computes
the unified value and shape, and pushes the result; every other instruction
bails with `none`. -/
def TypeEnv.instr (env : TypeEnv) (i : Instr) : Option TypeEnv :=
  match i with
  | .push val => some (env.push (Ty.from_value val))
  | .beginArray => some { env with array := env.array ++ [env.stack.length] }
  | .endArray boxed =>
    match env.array.getLast? with
    | none => none
    | some bottom =>
      let items := env.stack.drop bottom
      let value := unifiedValue boxed items
      let (value, shape) :=
        if boxed then
          (ValueType.box (.mk value none), some [items.length])
        else
          (value, commonShape items)
      some (TypeEnv.push
        { stack := env.stack.take bottom, array := env.array.dropLast }
        (.mk value shape))
  | .other => none

/-- Rust `TypeEnv::prim`: the primitive dispatch placeholder, which currently
bails unconditionally for every primitive. -/
def TypeEnv.prim (_env : TypeEnv) (_p : Primitive) : Option TypeEnv :=
  none

/-- The instruction loop of `check_type`: run `TypeEnv::instr` across the
instruction list, short-circuiting to `none` on the first bail. -/
def runInstrs (env : TypeEnv) : List Instr → Option TypeEnv
  | [] => some env
  | i :: rest =>
    match env.instr i with
    | none => none
    | some env2 => runInstrs env2 rest

/-- The initial environment of `check_type`: the stack is seeded with
`Type::from_value` of each input, bottom-to-top in call order; no open
arrays. -/
def initEnv (inputs : List Value) : TypeEnv :=
  { stack := inputs.map Ty.from_value, array := [] }

/-- Rust `check_type` from `check_type.rs`: seed the abstract stack from the
concrete inputs, run every instruction, and return the final stack, or
`none` the moment any instruction cannot be modeled. -/
def check_type (f : Function) (inputs : List Value) : Option (List Ty) :=
  (runInstrs (initEnv inputs) f.instrs).map TypeEnv.stack

/-! ## Helper lemmas -/

/-- If every element of a list equals `t` and `p t t` holds, every adjacent
pair satisfies `p`. -/
theorem adjacentAll_of_all_eq (p : α → α → Bool) (t : α) (hp : p t t = true)
    (l : List α) (h : ∀ x ∈ l, x = t) : adjacentAll p l = true := by
  induction l with
  | nil => rfl
  | cons a rest ih =>
    cases rest with
    | nil => rfl
    | cons b rest2 =>
      have ha : a = t := h a (by simp)
      have hb : b = t := h b (by simp)
      have hrest : adjacentAll p (b :: rest2) = true :=
        ih fun x hx => h x (List.mem_cons_of_mem a hx)
      simp only [adjacentAll, hrest, Bool.and_true]
      rw [ha, hb]
      exact hp

/-- A list whose `getLast?` is `some a` is its `dropLast` followed by
`a`. -/
theorem getLast?_some_decomp {l : List Nat} {a : Nat}
    (h : l.getLast? = some a) : l.dropLast ++ [a] = l := by
  cases l with
  | nil => simp at h
  | cons x xs =>
    have hne : (x :: xs) ≠ [] := by simp
    rw [List.getLast?_eq_getLast _ hne] at h
    obtain rfl := Option.some.inj h
    exact List.dropLast_append_getLast hne

/-- Unfolding of `TypeEnv::instr` on `EndArray` when the marker list ends in
`bottom`: the stack is split at `bottom`, the items are the suffix, and the
single result `Ty` (boxed or not) is pushed onto the untouched prefix. -/
theorem instr_endArray (stack : List Ty) (arr0 : List Nat) (bottom : Nat)
    (boxed : Bool) :
    TypeEnv.instr ⟨stack, arr0 ++ [bottom]⟩ (.endArray boxed) =
      some ⟨stack.take bottom ++
          [if boxed then
            Ty.mk (.box (.mk (unifiedValue true (stack.drop bottom)) none))
              (some [(stack.drop bottom).length])
          else
            Ty.mk (unifiedValue false (stack.drop bottom))
              (commonShape (stack.drop bottom))],
        arr0⟩ := by
  cases boxed <;>
    simp [TypeEnv.instr, TypeEnv.push, List.getLast?_concat, List.dropLast_concat]

/-- Running `runInstrs` on a cons is `instr` followed by the rest. -/
theorem runInstrs_cons (env : TypeEnv) (i : Instr) (rest : List Instr) :
    runInstrs env (i :: rest) =
      (env.instr i).bind fun env2 => runInstrs env2 rest := by
  cases h : env.instr i <;> simp [runInstrs, h]

/-- Running `runInstrs` distributes over list append. -/
theorem runInstrs_append (env : TypeEnv) (l1 l2 : List Instr) :
    runInstrs env (l1 ++ l2) =
      (runInstrs env l1).bind fun env2 => runInstrs env2 l2 := by
  induction l1 generalizing env with
  | nil => simp [runInstrs]
  | cons i rest ih =>
    cases h : env.instr i <;> simp [runInstrs, h, ih]

/-- A single instruction bails exactly on an unmodeled instruction or an
`EndArray` with no open-array marker. -/
theorem instr_eq_none_iff (env : TypeEnv) (i : Instr) :
    env.instr i = none ↔
      i = .other ∨ ∃ b, i = .endArray b ∧ env.array = [] := by
  cases i with
  | push v => simp [TypeEnv.instr]
  | beginArray => simp [TypeEnv.instr]
  | endArray b =>
    cases h : env.array.getLast? with
    | none =>
      have : env.array = [] := List.getLast?_eq_none_iff.mp h
      simp [TypeEnv.instr, h, this]
    | some bottom =>
      have : env.array ≠ [] := by
        intro he
        rw [he] at h
        simp at h
      simp [TypeEnv.instr, h, this]
  | other => simp [TypeEnv.instr]

/-! ## Claim theorems -/

/-- C1 (counterexample): closing a non-boxed array over zero items does NOT
push a `Ty` with shape `some [0]`: at the concrete environment with an empty
stack and a marker at depth 0, `EndArray{boxed: false}` pushes
`{value: Num, shape: None}`, whose shape is absent rather than `[0]`. -/
theorem endArray_unboxed_empty_shape_absent_cx :
    TypeEnv.instr ⟨[], [0]⟩ (.endArray false) =
        some ⟨[Ty.mk .num none], []⟩ ∧
      (Ty.mk .num none).shape ≠ some [0] := by
  decide

/-- C1 (amended): closing a non-boxed array literal over zero items (the
stack split at the popped marker yields an empty item list) pushes a `Ty`
with value numeric and ABSENT shape, leaving the rest of the stack
untouched. -/
theorem endArray_unboxed_empty (env : TypeEnv) (arr0 : List Nat) (bottom : Nat)
    (ha : env.array = arr0 ++ [bottom]) (hempty : env.stack.drop bottom = []) :
    TypeEnv.instr env (.endArray false) =
      some ⟨env.stack ++ [Ty.mk .num none], arr0⟩ := by
  obtain ⟨stack, array⟩ := env
  simp only at ha hempty
  subst ha
  have hlen : stack.length ≤ bottom := List.drop_eq_nil_iff.mp hempty
  rw [instr_endArray stack arr0 bottom false]
  rw [List.take_of_length_le hlen, hempty]
  rfl

/-- C1 (witness): the amended claim at a concrete one-element stack with a
marker at depth 1. -/
theorem endArray_unboxed_empty_witness :
    TypeEnv.instr ⟨[Ty.mk .num (some [])], [1]⟩ (.endArray false) =
      some ⟨[Ty.mk .num (some []), Ty.mk .num none], []⟩ := by
  have h := endArray_unboxed_empty ⟨[Ty.mk .num (some [])], [1]⟩ [] 1 rfl rfl
  simpa using h

/-- C2 (counterexample): on inputs `[numeric scalar]` and instructions
`[push numeric scalar, begin-array, push numeric scalar, end-array(false)]`,
`check_type` does NOT return the two-element stack the claim states: the
scalar pushed before `begin-array` also remains on the stack. -/
theorem check_type_scenario_cx :
    check_type ⟨[.push (.num []), .beginArray, .push (.num []),
        .endArray false]⟩ [.num []] ≠
      some [Ty.mk .num (some []), Ty.mk .num (some [1])] := by
  decide

/-- C2 (amended): on inputs `[numeric scalar]` and instructions
`[push numeric scalar, begin-array, push numeric scalar, end-array(false)]`,
`check_type` returns exactly the three-element stack: the seeded input at
the bottom, the scalar pushed before `begin-array` in the middle, and the
length-1 numeric array on top. -/
theorem check_type_scenario :
    check_type ⟨[.push (.num []), .beginArray, .push (.num []),
        .endArray false]⟩ [.num []] =
      some [Ty.mk .num (some []), Ty.mk .num (some []),
        Ty.mk .num (some [1])] := by
  decide

/-- C3 (counterexample): the homogeneous-array rule fails for the empty
item list: every member of `[]` vacuously equals `{Char, some []}`, yet
closing a non-boxed array over those zero items pushes `{Num, None}` rather
than `{Char, some [0]}`. -/
theorem endArray_homogeneous_empty_cx :
    (∀ x ∈ ([] : List Ty), x = Ty.mk .char (some [])) ∧
      TypeEnv.instr ⟨[], [0]⟩ (.endArray false) ≠
        some ⟨[Ty.mk .char (some [0])], []⟩ := by
  decide

/-- C3 (amended): for every NONEMPTY list of items all carrying the
identical `Ty` with value `V` and present shape `S`, `EndArray` with
`boxed = false` over exactly those items pushes `{V, some (N :: S)}` where
`N` is the item count. -/
theorem endArray_homogeneous (pre items : List Ty) (arr0 : List Nat)
    (V : ValueType) (S : Shape) (hne : items ≠ [])
    (hall : ∀ x ∈ items, x = Ty.mk V (some S)) :
    TypeEnv.instr ⟨pre ++ items, arr0 ++ [pre.length]⟩ (.endArray false) =
      some ⟨pre ++ [Ty.mk V (some (items.length :: S))], arr0⟩ := by
  obtain ⟨x, rest, rfl⟩ := List.exists_cons_of_ne_nil hne
  have hx : x = Ty.mk V (some S) := hall x (by simp)
  have hval : unifiedValue false (x :: rest) = V := by
    rw [unifiedValue,
      if_pos (adjacentAll_of_all_eq _ (Ty.mk V (some S)) (by simp) _ hall)]
    simp [hx, Ty.value]
  have hshape : commonShape (x :: rest) = some ((x :: rest).length :: S) := by
    have hsh : ∀ y ∈ x :: rest, y.shape = some S := by
      intro y hy
      rw [hall y hy]
      rfl
    rw [commonShape,
      if_pos (adjacentAll_of_all_eq _ (Ty.mk V (some S)) (by simp) _ hall)]
    simp [hx, Ty.shape]
  rw [instr_endArray (pre ++ (x :: rest)) arr0 pre.length false]
  rw [List.take_left, List.drop_left]
  rw [if_neg (by simp)]
  rw [hval, hshape]

/-- C3 (witness): the amended claim at one concrete item `{Num, some [2]}`
closed over a marker at depth 0, yielding `{Num, some [1, 2]}`. -/
theorem endArray_homogeneous_witness :
    TypeEnv.instr ⟨[Ty.mk .num (some [2])], [0]⟩ (.endArray false) =
      some ⟨[Ty.mk .num (some [1, 2])], []⟩ := by
  have h := endArray_homogeneous [] [Ty.mk .num (some [2])] [] .num [2]
    (by decide) (by decide)
  simpa using h

/-- C4: for every item list (any length, any item shapes), `EndArray` with
`boxed = true` pushes a `Ty` whose shape is `some [item_count]` and whose
value is `Box` wrapping the unified element type with absent shape; and for
zero items the pushed `Ty` is exactly `{Box({Unknown, None}), some [0]}`. -/
theorem endArray_boxed_spec (pre items : List Ty) (arr0 : List Nat) :
    TypeEnv.instr ⟨pre ++ items, arr0 ++ [pre.length]⟩ (.endArray true) =
        some ⟨pre ++ [Ty.mk (.box (.mk (unifiedValue true items) none))
          (some [items.length])], arr0⟩ ∧
      (items = [] →
        Ty.mk (.box (.mk (unifiedValue true items) none)) (some [items.length]) =
          Ty.mk (.box (.mk .unknown none)) (some [0])) := by
  constructor
  · rw [instr_endArray (pre ++ items) arr0 pre.length true]
    rw [List.take_left, List.drop_left]
    rw [if_pos rfl]
  · rintro rfl
    rfl

/-- C4 (witness): the boxed close at the concrete empty item list: the
pushed `Ty` is `{Box({Unknown, None}), some [0]}`. -/
theorem endArray_boxed_spec_witness :
    TypeEnv.instr ⟨[], [0]⟩ (.endArray true) =
      some ⟨[Ty.mk (.box (.mk .unknown none)) (some [0])], []⟩ := by
  have h := endArray_boxed_spec [] [] []
  have h2 := h.2 rfl
  have h1 := h.1
  rw [h2] at h1
  simpa using h1

/-- The instruction loop returns `none` exactly when some prefix of the
instructions runs successfully and the next instruction bails (an unmodeled
instruction, or `EndArray` with no open-array marker). -/
theorem runInstrs_eq_none_iff (instrs : List Instr) (env : TypeEnv) :
    runInstrs env instrs = none ↔
      ∃ pre i post env', instrs = pre ++ i :: post ∧
        runInstrs env pre = some env' ∧
        (i = .other ∨ ∃ b, i = .endArray b ∧ env'.array = []) := by
  induction instrs generalizing env with
  | nil =>
    simp only [runInstrs]
    constructor
    · intro h
      exact absurd h (by simp)
    · rintro ⟨pre, i, post, env', hsplit, _, _⟩
      exact absurd hsplit (by simp)
  | cons i0 rest ih =>
    constructor
    · intro h
      rw [runInstrs_cons] at h
      cases hi : env.instr i0 with
      | none =>
        exact ⟨[], i0, rest, env, rfl, rfl, (instr_eq_none_iff env i0).mp hi⟩
      | some env2 =>
        rw [hi, Option.some_bind] at h
        obtain ⟨pre, i, post, env', hsplit, hrun, hbail⟩ := (ih env2).mp h
        refine ⟨i0 :: pre, i, post, env', by rw [hsplit]; rfl, ?_, hbail⟩
        rw [runInstrs_cons, hi, Option.some_bind]
        exact hrun
    · rintro ⟨pre, i, post, env', hsplit, hrun, hbail⟩
      have hstop : env'.instr i = none := (instr_eq_none_iff env' i).mpr hbail
      rw [hsplit, runInstrs_append, hrun, Option.some_bind, runInstrs_cons,
        hstop, Option.none_bind]

/-- C5: `check_type` returns `none` exactly when the instruction sequence
contains an instruction outside {push, begin-array, end-array} or an
`EndArray` reached with no open-array marker; the run up to the first such
instruction succeeds and the whole analysis returns `none` regardless of
the remaining instructions — no partial stack is ever returned. -/
theorem check_type_none_iff (f : Function) (inputs : List Value) :
    check_type f inputs = none ↔
      ∃ pre i post env', f.instrs = pre ++ i :: post ∧
        runInstrs (initEnv inputs) pre = some env' ∧
        (i = .other ∨ ∃ b, i = .endArray b ∧ env'.array = []) := by
  rw [check_type, Option.map_eq_none']
  exact runInstrs_eq_none_iff f.instrs (initEnv inputs)

/-- C6 (counterexample): with instructions
`[push numeric scalar, push character scalar, begin-array, end-array(false)]`
exactly as stated, `begin-array` records depth 2, so the close captures ZERO
items: the added `Ty` is `{Num, None}` — its value is not `Unknown` and its
shape is not `[2]`. -/
theorem check_type_hetero_cx :
    check_type ⟨[.push (.num []), .push (.char []), .beginArray,
        .endArray false]⟩ [] =
      some [Ty.mk .num (some []), Ty.mk .char (some []), Ty.mk .num none] ∧
      (Ty.mk .num none).value ≠ .unknown ∧
      (Ty.mk .num none).shape ≠ some [2] := by
  decide

/-- C6 (amended): with `begin-array` placed BEFORE the two pushes —
`[begin-array, push numeric scalar, push character scalar, end-array(false)]`
— the close captures the two heterogeneous items, and the added `Ty` has
value `Unknown` and shape present as `[2]`, since both items are scalar. -/
theorem check_type_hetero :
    check_type ⟨[.beginArray, .push (.num []), .push (.char []),
        .endArray false]⟩ [] =
      some [Ty.mk .unknown (some [2])] := by
  decide

/-- C7: `Type::from_value` is total over the concrete-value variants and
always returns shape `some (actual runtime shape)`; numeric and byte values
map to the numeric element type, characters to the character type, a
function value holding a boxed inner value to `Box` of the recursively
computed `Ty` of that inner value, and any other function value to the
opaque-function type. -/
theorem from_value_spec (v : Value) :
    (Ty.from_value v).shape = some v.shape ∧
      (∀ s, v = .num s → (Ty.from_value v).value = .num) ∧
      (∀ s, v = .byte s → (Ty.from_value v).value = .num) ∧
      (∀ s, v = .char s → (Ty.from_value v).value = .char) ∧
      (∀ s inner, v = .func s (some inner) →
        (Ty.from_value v).value = .box (Ty.from_value inner)) ∧
      (∀ s, v = .func s none → (Ty.from_value v).value = .function) := by
  refine ⟨?_, fun s h => by subst h; rfl, fun s h => by subst h; rfl,
    fun s h => by subst h; rfl, fun s inner h => by subst h; rfl,
    fun s h => by subst h; rfl⟩
  cases v with
  | num s => rfl
  | byte s => rfl
  | char s => rfl
  | func s b => cases b <;> rfl

/-- C7 (witness): `from_value` at the concrete boxed function value whose
contents are a numeric value of shape `[2]`. -/
theorem from_value_spec_witness :
    (Ty.from_value (.func [] (some (.num [2])))).shape =
        some (Value.func [] (some (.num [2]))).shape ∧
      (Ty.from_value (.func [] (some (.num [2])))).value =
        .box (Ty.from_value (.num [2])) :=
  ⟨(from_value_spec (.func [] (some (.num [2])))).1,
    (from_value_spec (.func [] (some (.num [2])))).2.2.2.2.1 [] (.num [2]) rfl⟩

/-- C8: `TypeEnv::pop` on an empty stack returns the default
`{Unknown, None}` `Ty` (it never fails), and after every pop each recorded
open-array marker is at most the new stack length. -/
theorem pop_spec (env : TypeEnv) :
    (env.stack = [] → (TypeEnv.pop env).1 = Ty.mk .unknown none) ∧
      ∀ m ∈ (TypeEnv.pop env).2.array,
        m ≤ (TypeEnv.pop env).2.stack.length := by
  constructor
  · intro h
    simp [TypeEnv.pop, h, Ty.default]
  · intro m hm
    simp only [TypeEnv.pop, List.mem_map] at hm
    obtain ⟨a, _, rfl⟩ := hm
    exact min_le_right _ _

/-- C8 (witness): popping the concrete empty-stack environment with one
marker at depth 7 returns the default `Ty`, and the clamped markers stay
within the new stack length. -/
theorem pop_spec_witness :
    (TypeEnv.pop ⟨[], [7]⟩).1 = Ty.mk .unknown none ∧
      ∀ m ∈ (TypeEnv.pop ⟨[], [7]⟩).2.array,
        m ≤ (TypeEnv.pop ⟨[], [7]⟩).2.stack.length :=
  ⟨(pop_spec ⟨[], [7]⟩).1 rfl, (pop_spec ⟨[], [7]⟩).2⟩

/-- C9: `EndArray` leaves every stack slot below the popped marker depth
unchanged: the stack is split exactly at that depth, the item list is
exactly the suffix from the mark to the top in order, and exactly one
resulting `Ty` (computed from that item list) is pushed, so the final stack
is the untouched prefix plus one new entry. -/
theorem endArray_frame (env : TypeEnv) (arr0 : List Nat) (bottom : Nat)
    (boxed : Bool) (ha : env.array = arr0 ++ [bottom]) :
    TypeEnv.instr env (.endArray boxed) =
      some ⟨env.stack.take bottom ++
          [if boxed then
            Ty.mk (.box (.mk (unifiedValue true (env.stack.drop bottom)) none))
              (some [(env.stack.drop bottom).length])
          else
            Ty.mk (unifiedValue false (env.stack.drop bottom))
              (commonShape (env.stack.drop bottom))],
        arr0⟩ := by
  obtain ⟨stack, array⟩ := env
  simp only at ha
  subst ha
  exact instr_endArray stack arr0 bottom boxed

/-- C9 (witness): the frame property at a concrete two-element stack with a
marker at depth 1: the bottom slot is untouched and the single-item close
is pushed. -/
theorem endArray_frame_witness :
    TypeEnv.instr ⟨[Ty.mk .num (some []), Ty.mk .char (some [])], [1]⟩
        (.endArray false) =
      some ⟨[Ty.mk .num (some []), Ty.mk .char (some [1])], []⟩ := by
  have h := endArray_frame
    ⟨[Ty.mk .num (some []), Ty.mk .char (some [])], [1]⟩ [] 1 false rfl
  rw [h]
  decide

/-- The invariant actively maintained on the marker list during a run that
never calls `pop`: markers are nondecreasing in push order and each one is
at most the current stack length. -/
def markerInv (env : TypeEnv) : Prop :=
  List.Sorted (· ≤ ·) env.array ∧ ∀ m ∈ env.array, m ≤ env.stack.length

/-- One instruction step of the handler preserves the marker invariant. -/
theorem markerInv_instr (env env' : TypeEnv) (i : Instr)
    (hinv : markerInv env) (h : env.instr i = some env') : markerInv env' := by
  obtain ⟨hs, hb⟩ := hinv
  cases i with
  | push v =>
    obtain rfl := Option.some.inj h
    refine ⟨hs, fun m hm => ?_⟩
    simp only [TypeEnv.push, List.length_append, List.length_cons,
      List.length_nil]
    exact (hb m hm).trans (Nat.le_add_right _ _)
  | beginArray =>
    obtain rfl := Option.some.inj h
    constructor
    · refine List.pairwise_append.mpr ⟨hs, List.pairwise_singleton _ _, ?_⟩
      intro a hm b hb2
      simp only [List.mem_singleton] at hb2
      subst hb2
      exact hb a hm
    · intro m hm
      simp only [List.mem_append, List.mem_singleton] at hm
      rcases hm with hm | rfl
      · exact hb m hm
      · exact le_refl _
  | endArray boxed =>
    cases hl : env.array.getLast? with
    | none =>
      simp [TypeEnv.instr, hl] at h
    | some bottom =>
      have hdec : env.array.dropLast ++ [bottom] = env.array :=
        getLast?_some_decomp hl
      have hbot : bottom ≤ env.stack.length :=
        hb bottom (List.mem_of_mem_getLast? hl)
      simp only [TypeEnv.instr, hl] at h
      obtain rfl := Option.some.inj h
      rw [← hdec] at hs
      have hpair := List.pairwise_append.mp hs
      constructor
      · exact hpair.1
      · intro m hm
        simp only [TypeEnv.push, List.length_append, List.length_take,
          List.length_cons, List.length_nil, min_eq_left hbot]
        have hmb : m ≤ bottom := hpair.2.2 m hm bottom (by simp)
        exact hmb.trans (Nat.le_succ _)
  | other =>
    simp [TypeEnv.instr] at h

/-- The marker invariant is preserved along any successful instruction
run. -/
theorem markerInv_runInstrs (instrs : List Instr) (env env' : TypeEnv)
    (hinv : markerInv env) (h : runInstrs env instrs = some env') :
    markerInv env' := by
  induction instrs generalizing env with
  | nil =>
    simp only [runInstrs] at h
    obtain rfl := Option.some.inj h
    exact hinv
  | cons i rest ih =>
    rw [runInstrs_cons] at h
    cases hi : env.instr i with
    | none =>
      rw [hi, Option.none_bind] at h
      exact absurd h (by simp)
    | some env2 =>
      rw [hi, Option.some_bind] at h
      exact ih env2 (markerInv_instr env env2 i hinv hi) h

/-- C10: at every state reachable by running the instruction handler from
the seeded initial environment, the open-array marker list is nondecreasing
in push order and every marker is at most the current stack length; hence
whenever the marker list ends in `bottom` (the marker `EndArray` pops),
`bottom` is the largest marker and the stack split at it is in bounds, so
the out-of-range split that would panic is unreachable. -/
theorem marker_invariant (instrs : List Instr) (inputs : List Value)
    (env' : TypeEnv) (h : runInstrs (initEnv inputs) instrs = some env') :
    (List.Sorted (· ≤ ·) env'.array ∧
        ∀ m ∈ env'.array, m ≤ env'.stack.length) ∧
      ∀ arr0 bottom, env'.array = arr0 ++ [bottom] →
        bottom ≤ env'.stack.length ∧ ∀ m ∈ arr0, m ≤ bottom := by
  have hinv : markerInv env' :=
    markerInv_runInstrs instrs (initEnv inputs) env'
      ⟨List.sorted_nil, by simp [initEnv]⟩ h
  obtain ⟨hs, hb⟩ := hinv
  refine ⟨⟨hs, hb⟩, ?_⟩
  intro arr0 bottom harr
  rw [harr] at hs hb
  constructor
  · exact hb bottom (by simp)
  · intro m hm
    exact (List.pairwise_append.mp hs).2.2 m hm bottom (by simp)

/-- C10 (witness): the invariant conclusions at the concrete one-instruction
run `[begin-array]` from no inputs, ending with one marker at depth 0. -/
theorem marker_invariant_witness :
    (List.Sorted (· ≤ ·) (TypeEnv.mk [] [0]).array ∧
        ∀ m ∈ (TypeEnv.mk [] [0]).array,
          m ≤ (TypeEnv.mk [] [0]).stack.length) ∧
      ∀ arr0 bottom, (TypeEnv.mk [] [0]).array = arr0 ++ [bottom] →
        bottom ≤ (TypeEnv.mk [] [0]).stack.length ∧
          ∀ m ∈ arr0, m ≤ bottom :=
  marker_invariant [.beginArray] [] ⟨[], [0]⟩ rfl

end Uiua
